import Mathlib

/-!
# Verification of the statistical core of the BYOA-regression app

This file gives a shallow embedding, in Lean 4, of the statistical
computations of the repository (Kaplan-Meier survival estimation, the
closed-form simple linear estimator, Knuth's Poisson sampler, and the
synthetic dataset generators), and proves or refutes the properties the
specification states about them.

Modelling conventions:
* JavaScript numbers are idealised as exact rationals (`ℚ`) where the
  source performs only field arithmetic with non-zero divisors, and as
  exact reals (`ℝ`) where the source uses `Math.exp` / `Math.floor`.
* The one place where IEEE-754 special values are observable — the
  unguarded division `slope = ssxy / ssxx` of the linear estimator —
  is modelled explicitly by the type `JsNum`, which adjoins `NaN`,
  `Infinity` and `-Infinity` to the finite rationals, with JavaScript's
  division-by-zero and propagation rules.
* `Math.random()` is modelled as an explicit stream `ℕ → ℝ` (or an
  explicit tuple of draws) of uniform values, making every generator a
  deterministic function of its draws.
* The source's unbounded `do … while` Poisson loop is modelled with an
  explicit fuel parameter; divergence of the loop is the statement that
  every fuel amount returns `none`.
-/

namespace ByoaRegression

/-! ## Kaplan-Meier estimator (CoxRegression.js `calculateKaplanMeier`,
and the identical inline copy in the Home component) -/

/-- One input record for the survival estimator: an event/censoring time
and the record's `censored` flag. -/
structure SurvRecord where
  time : ℚ
  censored : Bool
deriving DecidableEq, Repr

/-- One output point of the survival estimator, as pushed by the source:
`{time, probability, censored}`. -/
structure SurvivalPoint where
  time : ℚ
  probability : ℚ
  censored : Bool
deriving DecidableEq, Repr

/-- The body of the source's `forEach` loop: `n` is the current at-risk
count, `currentProb` the running survival probability.  If the record is
not censored the probability is multiplied by `(n - 1) / n`; the point is
pushed; `n` is decremented. -/
def kmLoop : List SurvRecord → ℕ → ℚ → List SurvivalPoint
  | [], _, _ => []
  | d :: rest, n, currentProb =>
    let p := if d.censored then currentProb else currentProb * (((n : ℚ) - 1) / (n : ℚ))
    ⟨d.time, p, d.censored⟩ :: kmLoop rest (n - 1) p

/-- `calculateKaplanMeier` from `CoxRegression.js` (the Home component
contains a line-for-line inline copy): start with `n = data.length` and
probability `1`, then run the loop. -/
def calculateKaplanMeier (data : List SurvRecord) : List SurvivalPoint :=
  kmLoop data data.length 1

/-- Closed-form survival factor accumulated over a processed prefix,
written as the specification describes it: starting from at-risk count
`n`, an uncensored record contributes a factor `(n - 1) / n`, a censored
record contributes `1`, and the at-risk count decrements either way. -/
def kmProd : ℕ → List SurvRecord → ℚ
  | _, [] => 1
  | n, d :: rest => (if d.censored then 1 else ((n : ℚ) - 1) / (n : ℚ)) * kmProd (n - 1) rest

theorem kmLoop_length (rest : List SurvRecord) : ∀ (n : ℕ) (p : ℚ),
    (kmLoop rest n p).length = rest.length := by
  induction rest with
  | nil => intro n p; rfl
  | cons d r ih => intro n p; simp [kmLoop, ih]

theorem kmLoop_get? (rest : List SurvRecord) : ∀ (n : ℕ) (p : ℚ) (i : ℕ) (d : SurvRecord),
    rest[i]? = some d →
    (kmLoop rest n p)[i]? = some ⟨d.time, p * kmProd n (rest.take (i + 1)), d.censored⟩ := by
  induction rest with
  | nil => intro n p i d h; simp at h
  | cons d0 r ih =>
    intro n p i d h
    have hunfold : kmLoop (d0 :: r) n p
        = ⟨d0.time, if d0.censored then p else p * (((n : ℚ) - 1) / (n : ℚ)), d0.censored⟩
          :: kmLoop r (n - 1) (if d0.censored then p else p * (((n : ℚ) - 1) / (n : ℚ))) := rfl
    cases i with
    | zero =>
      have hd : d0 = d := by simpa using h
      subst hd
      rw [hunfold]
      by_cases hc : d0.censored <;> simp [kmProd, hc, mul_comm]
    | succ j =>
      have h' : r[j]? = some d := by simpa using h
      have hmain := ih (n - 1) (if d0.censored then p else p * (((n : ℚ) - 1) / (n : ℚ))) j d h'
      have hstep : (if d0.censored then p else p * (((n : ℚ) - 1) / (n : ℚ)))
          * kmProd (n - 1) (r.take (j + 1)) = p * kmProd n ((d0 :: r).take (j + 1 + 1)) := by
        by_cases hc : d0.censored <;> simp [kmProd, hc, mul_assoc]
      rw [hunfold]
      simpa [hstep] using hmain

theorem kmFactor_nonneg (n : ℕ) : 0 ≤ ((n : ℚ) - 1) / (n : ℚ) := by
  cases n with
  | zero => simp
  | succ m =>
    apply div_nonneg
    · have : (1 : ℚ) ≤ ((m + 1 : ℕ) : ℚ) := by exact_mod_cast Nat.one_le_iff_ne_zero.mpr (by simp)
      linarith
    · positivity

theorem kmFactor_le_one (n : ℕ) : ((n : ℚ) - 1) / (n : ℚ) ≤ 1 := by
  cases n with
  | zero => simp
  | succ m =>
    have hpos : (0 : ℚ) < ((m + 1 : ℕ) : ℚ) := by positivity
    rw [div_le_one hpos]
    linarith

theorem chain_of_chain_cons {α : Type} {R : α → α → Prop} {x : α} {l : List α}
    (h : List.Chain R x l) : List.Chain' R l := by
  cases l with
  | nil => simp
  | cons b t => exact (List.chain_cons.mp h).2

theorem kmLoop_chain (rest : List SurvRecord) :
    ∀ (n : ℕ) (p : ℚ) (prev : SurvivalPoint), prev.probability = p → 0 ≤ p →
    List.Chain (fun a b : SurvivalPoint =>
      b.probability ≤ a.probability ∧ (b.probability < a.probability → b.censored = false))
      prev (kmLoop rest n p) := by
  induction rest with
  | nil => intro n p prev _ _; exact List.Chain.nil
  | cons d0 r ih =>
    intro n p prev hprev hp
    have hunfold : kmLoop (d0 :: r) n p
        = ⟨d0.time, if d0.censored then p else p * (((n : ℚ) - 1) / (n : ℚ)), d0.censored⟩
          :: kmLoop r (n - 1) (if d0.censored then p else p * (((n : ℚ) - 1) / (n : ℚ))) := rfl
    rw [hunfold]
    refine List.Chain.cons ⟨?_, ?_⟩
      (ih (n - 1) (if d0.censored then p else p * (((n : ℚ) - 1) / (n : ℚ)))
        ⟨d0.time, if d0.censored then p else p * (((n : ℚ) - 1) / (n : ℚ)), d0.censored⟩
        rfl ?_)
    · rw [hprev]
      by_cases hc : d0.censored
      · simp [hc]
      · simpa [hc] using mul_le_of_le_one_right hp (kmFactor_le_one n)
    · intro hlt
      rw [hprev] at hlt
      by_cases hc : d0.censored
      · simp [hc] at hlt
      · simpa using hc
    · by_cases hc : d0.censored
      · simpa [hc] using hp
      · simpa [hc] using mul_nonneg hp (kmFactor_nonneg n)

theorem kmLoop_mem_bounds (rest : List SurvRecord) :
    ∀ (n : ℕ) (p : ℚ), 0 ≤ p → p ≤ 1 →
    ∀ pt ∈ kmLoop rest n p, 0 ≤ pt.probability ∧ pt.probability ≤ 1 := by
  induction rest with
  | nil => intro n p _ _ pt hpt; simp [kmLoop] at hpt
  | cons d0 r ih =>
    intro n p hp0 hp1 pt hpt
    have hnext0 : 0 ≤ if d0.censored then p else p * (((n : ℚ) - 1) / (n : ℚ)) := by
      by_cases hc : d0.censored
      · simpa [hc] using hp0
      · simpa [hc] using mul_nonneg hp0 (kmFactor_nonneg n)
    have hnext1 : (if d0.censored then p else p * (((n : ℚ) - 1) / (n : ℚ))) ≤ 1 := by
      by_cases hc : d0.censored
      · simpa [hc] using hp1
      · simpa [hc] using le_trans (mul_le_of_le_one_right hp0 (kmFactor_le_one n)) hp1
    have hunfold : kmLoop (d0 :: r) n p
        = ⟨d0.time, if d0.censored then p else p * (((n : ℚ) - 1) / (n : ℚ)), d0.censored⟩
          :: kmLoop r (n - 1) (if d0.censored then p else p * (((n : ℚ) - 1) / (n : ℚ))) := rfl
    rw [hunfold] at hpt
    rcases List.mem_cons.mp hpt with hpt | hpt
    · subst hpt; exact ⟨hnext0, hnext1⟩
    · exact ih (n - 1) _ hnext0 hnext1 pt hpt

theorem kmLoop_map_time (rest : List SurvRecord) : ∀ (n : ℕ) (p : ℚ),
    (kmLoop rest n p).map SurvivalPoint.time = rest.map SurvRecord.time := by
  induction rest with
  | nil => intro n p; rfl
  | cons d0 r ih => intro n p; simp [kmLoop, ih]

theorem kmLoop_map_prob (r1 : List SurvRecord) :
    ∀ (r2 : List SurvRecord) (n : ℕ) (p : ℚ),
    r1.map SurvRecord.censored = r2.map SurvRecord.censored →
    (kmLoop r1 n p).map SurvivalPoint.probability
      = (kmLoop r2 n p).map SurvivalPoint.probability := by
  induction r1 with
  | nil =>
    intro r2 n p h
    cases r2 with
    | nil => rfl
    | cons b t => simp at h
  | cons d0 r ih =>
    intro r2 n p h
    cases r2 with
    | nil => simp at h
    | cons e0 t =>
      simp only [List.map_cons, List.cons.injEq] at h
      obtain ⟨hflag, htail⟩ := h
      simp only [kmLoop, List.map_cons, hflag]
      exact congrArg _ (ih t (n - 1) _ htail)

/-- **C1**: the Kaplan-Meier estimator preserves the input length (empty in,
empty out), passes time and censored flag through unchanged at every index,
and the probability at index `i` is the running product that starts from
`atRisk = length` and multiplies in `(atRisk - 1)/atRisk` exactly at the
uncensored records of the first `i + 1` records (so a censored record
repeats the unchanged probability); on three uncensored events at times
`[1, 2, 3]` the output is `2/3, 1/3, 0`, all with `censored = false`. -/
theorem calculateKaplanMeier_spec :
    (∀ data : List SurvRecord, (calculateKaplanMeier data).length = data.length) ∧
    calculateKaplanMeier [] = [] ∧
    (∀ (data : List SurvRecord) (i : ℕ) (d : SurvRecord), data[i]? = some d →
      (calculateKaplanMeier data)[i]? =
        some ⟨d.time, kmProd data.length (data.take (i + 1)), d.censored⟩) ∧
    calculateKaplanMeier [⟨1, false⟩, ⟨2, false⟩, ⟨3, false⟩] =
      [⟨1, 2/3, false⟩, ⟨2, 1/3, false⟩, ⟨3, 0, false⟩] := by
  refine ⟨fun data => kmLoop_length data _ _, rfl, fun data i d h => ?_, ?_⟩
  · simpa using kmLoop_get? data data.length 1 i d h
  · norm_num [calculateKaplanMeier, kmLoop]

/-- Witness for C1 at a concrete input and index. -/
theorem calculateKaplanMeier_spec_witness :
    (([⟨1, false⟩, ⟨2, false⟩, ⟨3, false⟩] : List SurvRecord)[1]? =
      some (⟨2, false⟩ : SurvRecord)) ∧
    (calculateKaplanMeier [⟨1, false⟩, ⟨2, false⟩, ⟨3, false⟩])[1]? =
      some (⟨2, kmProd 3 (([⟨1, false⟩, ⟨2, false⟩, ⟨3, false⟩] : List SurvRecord).take 2),
        false⟩ : SurvivalPoint) :=
  ⟨rfl, calculateKaplanMeier_spec.2.2.1 [⟨1, false⟩, ⟨2, false⟩, ⟨3, false⟩] 1 ⟨2, false⟩ rfl⟩

/-- **C4**: on an input sorted ascending by time, the output probabilities
are non-increasing from point to point, and a strict decrease between
adjacent points happens only at an uncensored record. -/
theorem calculateKaplanMeier_monotone (data : List SurvRecord)
    (_hsorted : List.Chain' (fun a b : SurvRecord => a.time ≤ b.time) data) :
    List.Chain' (fun a b : SurvivalPoint =>
      b.probability ≤ a.probability ∧ (b.probability < a.probability → b.censored = false))
      (calculateKaplanMeier data) :=
  chain_of_chain_cons
    (kmLoop_chain data data.length 1 ⟨0, 1, false⟩ rfl (by norm_num))

/-- Witness for C4 on a concrete sorted input with a censored middle record. -/
theorem calculateKaplanMeier_monotone_witness :
    List.Chain' (fun a b : SurvRecord => a.time ≤ b.time)
      [⟨1, false⟩, ⟨2, true⟩, ⟨3, false⟩] ∧
    List.Chain' (fun a b : SurvivalPoint =>
      b.probability ≤ a.probability ∧ (b.probability < a.probability → b.censored = false))
      (calculateKaplanMeier [⟨1, false⟩, ⟨2, true⟩, ⟨3, false⟩]) :=
  ⟨by norm_num [List.chain'_cons, List.chain'_singleton],
   calculateKaplanMeier_monotone _ (by norm_num [List.chain'_cons, List.chain'_singleton])⟩

/-- **C9, counterexample**: the claim says every emitted probability is
strictly positive, but a single uncensored record already yields the point
`{time := 1, probability := 0, censored := false}`. -/
theorem calculateKaplanMeier_pos_cex :
    ∃ pt ∈ calculateKaplanMeier [⟨1, false⟩], ¬ (0 < pt.probability) := by
  have h : calculateKaplanMeier [⟨1, false⟩] = [⟨1, 0, false⟩] := by
    norm_num [calculateKaplanMeier, kmLoop]
  rw [h]
  exact ⟨⟨1, 0, false⟩, by simp, by norm_num⟩

/-- **C9, amended**: every emitted probability lies in `[0, 1]`; the lower
end `0` is attained (exactly when the final record is uncensored), so the
strict bound `(0..1]` of the data model does not hold. -/
theorem calculateKaplanMeier_prob_bounds (data : List SurvRecord) (_hne : data ≠ []) :
    ∀ pt ∈ calculateKaplanMeier data, 0 ≤ pt.probability ∧ pt.probability ≤ 1 :=
  fun pt hpt => kmLoop_mem_bounds data data.length 1 (by norm_num) (by norm_num) pt hpt

/-- Witness for the amended C9 on a concrete non-empty input. -/
theorem calculateKaplanMeier_prob_bounds_witness :
    ([⟨1, false⟩, ⟨2, true⟩] : List SurvRecord) ≠ [] ∧
    ∀ pt ∈ calculateKaplanMeier [⟨1, false⟩, ⟨2, true⟩],
      0 ≤ pt.probability ∧ pt.probability ≤ 1 :=
  ⟨by simp, calculateKaplanMeier_prob_bounds _ (by simp)⟩

/-- **C10**: the probability sequence depends only on the sequence of
censored flags (same flags at every index forces identical probabilities,
whatever the times are), and the times are passed through unchanged. -/
theorem calculateKaplanMeier_noninterference :
    (∀ d1 d2 : List SurvRecord,
      d1.map SurvRecord.censored = d2.map SurvRecord.censored →
      (calculateKaplanMeier d1).map SurvivalPoint.probability
        = (calculateKaplanMeier d2).map SurvivalPoint.probability) ∧
    (∀ data : List SurvRecord,
      (calculateKaplanMeier data).map SurvivalPoint.time = data.map SurvRecord.time) := by
  constructor
  · intro d1 d2 h
    have hlen : d1.length = d2.length := by
      have := congrArg List.length h
      simpa using this
    unfold calculateKaplanMeier
    rw [hlen]
    exact kmLoop_map_prob d1 d2 d2.length 1 h
  · intro data
    exact kmLoop_map_time data data.length 1

/-- Witness for C10: same censored flags, different times, same probabilities. -/
theorem calculateKaplanMeier_noninterference_witness :
    ([⟨1, false⟩, ⟨2, true⟩] : List SurvRecord).map SurvRecord.censored
      = ([⟨10, false⟩, ⟨20, true⟩] : List SurvRecord).map SurvRecord.censored ∧
    (calculateKaplanMeier [⟨1, false⟩, ⟨2, true⟩]).map SurvivalPoint.probability
      = (calculateKaplanMeier [⟨10, false⟩, ⟨20, true⟩]).map SurvivalPoint.probability :=
  ⟨rfl, calculateKaplanMeier_noninterference.1 _ _ rfl⟩

/-! ## Poisson sampler (PoissonRegression.js `poissonSample`)

The source runs `L = Math.exp(-lambda); k = 0; p = 1; do { k++; p *=
Math.random() } while (p > L); return k - 1`.  The random source is an
explicit stream `rng : ℕ → ℝ`; the unbounded loop is given an explicit
fuel parameter, `none` meaning the loop has not exited within that many
iterations.  The state `(k, p)` is the number of draws consumed so far and
the running product of the draws; on exit the source returns `k' - 1`
where `k'` counts the exiting iteration, i.e. exactly `k`. -/

noncomputable def poissonLoop (L : ℝ) (rng : ℕ → ℝ) : ℕ → ℕ → ℝ → Option ℕ
  | 0, _, _ => none
  | fuel + 1, k, p =>
    if p * rng k ≤ L then some k
    else poissonLoop L rng fuel (k + 1) (p * rng k)

/-- `poissonSample(lambda)` from `PoissonRegression.js`, with the random
stream and the loop fuel made explicit. -/
noncomputable def poissonSample (lam : ℝ) (rng : ℕ → ℝ) (fuel : ℕ) : Option ℕ :=
  poissonLoop (Real.exp (-lam)) rng fuel 0 1

/-- The source's `do … while` loop exits after finitely many iterations on
the random stream `rng`. -/
def poissonTerminates (lam : ℝ) (rng : ℕ → ℝ) : Prop :=
  ∃ fuel k, poissonSample lam rng fuel = some k

/-- **C5**: with rate `0` we get `L = e^0 = 1`, so the very first draw
(anything `≤ 1`) already satisfies `p ≤ L`: the loop exits after exactly
one draw and returns `k - 1 = 0`, for every random stream of draws in
`[0, 1]` — fuel `1` suffices, whatever extra fuel is available. -/
theorem poissonSample_zero (rng : ℕ → ℝ) (h : ∀ i, 0 ≤ rng i ∧ rng i ≤ 1) (fuel : ℕ) :
    poissonSample 0 rng (fuel + 1) = some 0 := by
  have h0 : (1 : ℝ) * rng 0 ≤ Real.exp (-0) := by
    rw [neg_zero, Real.exp_zero, one_mul]
    exact (h 0).2
  unfold poissonSample
  simp only [poissonLoop]
  rw [if_pos h0]

/-- Witness for C5 at the constant stream `1/3` with fuel `1`. -/
theorem poissonSample_zero_witness :
    (∀ i : ℕ, 0 ≤ (fun _ => (1/3 : ℝ)) i ∧ (fun _ => (1/3 : ℝ)) i ≤ 1) ∧
    poissonSample 0 (fun _ => (1/3 : ℝ)) 1 = some 0 :=
  ⟨fun _ => by norm_num, poissonSample_zero (fun _ => (1/3 : ℝ)) (fun _ => by norm_num) 0⟩

theorem poissonLoop_ones_none :
    ∀ (fuel k : ℕ), poissonLoop (Real.exp (-1)) (fun _ => (1 : ℝ)) fuel k 1 = none := by
  intro fuel
  induction fuel with
  | zero => intro k; rfl
  | succ f ih =>
    intro k
    have hcond : ¬ ((1 : ℝ) * 1 ≤ Real.exp (-1)) := by
      rw [one_mul]
      exact not_le.mpr (Real.exp_lt_one_iff.mpr (by norm_num))
    simp only [poissonLoop]
    rw [if_neg hcond]
    simpa using ih (k + 1)

/-- **C6, counterexample**: the claim quantifies over every sequence of
draws in `[0, 1]`; on the constant stream `1` with rate `1` the running
product stays `1 > e^(-1)` forever, so the source's loop never exits. -/
theorem poissonSample_termination_cex : ¬ poissonTerminates 1 (fun _ => (1 : ℝ)) := by
  rintro ⟨fuel, k, h⟩
  unfold poissonSample at h
  rw [poissonLoop_ones_none] at h
  exact Option.noConfusion h

theorem poissonLoop_exits (L : ℝ) (rng : ℕ → ℝ) :
    ∀ (n k : ℕ) (p : ℝ), 1 ≤ n → p * (∏ i in Finset.range n, rng (k + i)) ≤ L →
    ∃ m, poissonLoop L rng n k p = some m := by
  intro n
  induction n with
  | zero => intro k p h _; exact absurd h (by norm_num)
  | succ f ih =>
    intro k p _ hprod
    by_cases hstep : p * rng k ≤ L
    · exact ⟨k, by simp only [poissonLoop]; rw [if_pos hstep]⟩
    · cases f with
      | zero =>
        exact absurd (by simpa using hprod) hstep
      | succ g =>
        have hsplit : (∏ i in Finset.range (g + 1 + 1), rng (k + i))
            = (∏ i in Finset.range (g + 1), rng ((k + 1) + i)) * rng k := by
          rw [Finset.prod_range_succ']
          congr 1
          apply Finset.prod_congr rfl
          intro i _
          congr 1
          omega
        have hy : (p * rng k) * (∏ i in Finset.range (g + 1), rng ((k + 1) + i)) ≤ L := by
          calc (p * rng k) * (∏ i in Finset.range (g + 1), rng ((k + 1) + i))
              = p * ((∏ i in Finset.range (g + 1), rng ((k + 1) + i)) * rng k) := by ring
            _ = p * (∏ i in Finset.range (g + 1 + 1), rng (k + i)) := by rw [hsplit]
            _ ≤ L := hprod
        obtain ⟨m, hm⟩ := ih (k + 1) (p * rng k) (by omega) hy
        exact ⟨m, by simp only [poissonLoop]; rw [if_neg hstep]; exact hm⟩

/-- **C6, amended**: for every rate `λ ≥ 0` and every stream of draws in
`[0, 1]` such that some finite prefix of the draws has product at most
`e^(-λ)` (this holds with probability one for genuinely random draws, and
always holds when `λ = 0`), the sampler's loop terminates, returning a
non-negative integer (`ℕ`).  Termination does not hold for *every* stream:
see the counterexample. -/
theorem poissonSample_terminates (lam : ℝ) (rng : ℕ → ℝ)
    (_hlam : 0 ≤ lam) (_hr : ∀ i, 0 ≤ rng i ∧ rng i ≤ 1)
    (hex : ∃ n, 1 ≤ n ∧ (∏ i in Finset.range n, rng i) ≤ Real.exp (-lam)) :
    poissonTerminates lam rng := by
  obtain ⟨n, hn1, hnle⟩ := hex
  obtain ⟨m, hm⟩ := poissonLoop_exits (Real.exp (-lam)) rng n 0 1 hn1 (by simpa using hnle)
  exact ⟨n, m, hm⟩

/-- Witness for the amended C6: rate `0`, constant stream `1/2`, exit
after the first draw. -/
theorem poissonSample_terminates_witness :
    (0 : ℝ) ≤ 0 ∧ (∀ i : ℕ, 0 ≤ (fun _ => (1/2 : ℝ)) i ∧ (fun _ => (1/2 : ℝ)) i ≤ 1) ∧
    poissonTerminates 0 (fun _ => (1/2 : ℝ)) :=
  ⟨le_refl 0, fun _ => by norm_num,
   poissonSample_terminates 0 (fun _ => (1/2 : ℝ)) (le_refl 0) (fun _ => by norm_num)
     ⟨1, le_refl 1, by norm_num [Finset.prod_range_one, Real.exp_zero]⟩⟩

/-! ## Synthetic dataset generators

Each generator consumes explicit uniform draws (`Math.random()` values),
so a sample is a deterministic function of its draws. -/

/-- One record of the cancer-survival generator (`CoxRegression.js`,
`medicalExamples.cancerSurvival.data`; the Home component repeats the same
code). -/
structure CancerSample where
  age : ℝ
  stage : ℤ
  survivalTime : ℝ
  censored : Bool

/-- One cancer-survival sample from its four uniform draws, exactly as the
source computes it: `age = 40 + u1*40`, `stage = floor(u2*4) + 1`,
`baseTime = 60 - age/10 - stage*6`,
`survivalTime = max(1, baseTime + u3*20)`, and
`censored = (u4 > 0.3)` — note the direction of the comparison. -/
noncomputable def cancerSample (u1 u2 u3 u4 : ℝ) : CancerSample :=
  let age := 40 + u1 * 40
  let stage := ⌊u2 * 4⌋ + 1
  let baseTime := 60 - age / 10 - (stage : ℝ) * 6
  ⟨age, stage, max 1 (baseTime + u3 * 20), if (0.3 : ℝ) < u4 then true else false⟩

/-- **C7**: the survival-time formula is as claimed, but the censored flag
is `true` exactly when the uniform draw exceeds `0.3` — i.e. with
probability `0.7`, not the claimed (and source-commented) `0.3`.  At the
draw `u4 = 1/2` the source marks the record censored. -/
theorem cancerSample_censored_bug :
    (cancerSample 0 0 0 (1/2)).censored = true ∧
    (cancerSample 0 0 0 (1/5)).censored = false ∧
    (∀ u1 u2 u3 u4 : ℝ, ((cancerSample u1 u2 u3 u4).censored = true ↔ (0.3 : ℝ) < u4)) ∧
    (∀ u1 u2 u3 u4 : ℝ, (cancerSample u1 u2 u3 u4).survivalTime
      = max 1 (60 - (40 + u1 * 40) / 10 - ((⌊u2 * 4⌋ + 1 : ℤ) : ℝ) * 6 + u3 * 20)) := by
  refine ⟨?_, ?_, fun u1 u2 u3 u4 => ?_, fun u1 u2 u3 u4 => ?_⟩
  · show (if (0.3 : ℝ) < 1/2 then true else false) = true
    rw [if_pos (by norm_num)]
  · show (if (0.3 : ℝ) < 1/5 then true else false) = false
    rw [if_neg (by norm_num)]
  · show (if (0.3 : ℝ) < u4 then true else false) = true ↔ (0.3 : ℝ) < u4
    by_cases h : (0.3 : ℝ) < u4 <;> simp [h]
  · show max 1 (60 - (40 + u1 * 40) / 10 - ((⌊u2 * 4⌋ + 1 : ℤ) : ℝ) * 6 + u3 * 20)
      = max 1 (60 - (40 + u1 * 40) / 10 - ((⌊u2 * 4⌋ + 1 : ℤ) : ℝ) * 6 + u3 * 20)
    rfl

/-- One record of the hospital-infections generator on the Poisson page
(`PoissonRegression.js`), whose count comes from `poissonSample`
(`none` when the sampler's loop has not exited within the given fuel). -/
structure HospSample where
  bedCount : ℤ
  staffRatio : ℝ
  infections : Option ℕ

/-- One hospital-infections sample (Poisson page) from its draws:
`bedCount = floor(10 + u1*90)`, `staffRatio = 0.2 + u2*0.5`,
`lambda = (bedCount/20)*(1 - staffRatio)`,
`infections = poissonSample(lambda)` on the remaining stream. -/
noncomputable def hospSample (u1 u2 : ℝ) (rng : ℕ → ℝ) (fuel : ℕ) : HospSample :=
  let bedCount := ⌊10 + u1 * 90⌋
  let staffRatio := (0.2 : ℝ) + u2 * 0.5
  let lam := ((bedCount : ℝ) / 20) * (1 - staffRatio)
  ⟨bedCount, staffRatio, poissonSample lam rng fuel⟩

/-- One record of the *Home* page's hospital-infections generator
(`LogisticRegression.js`, `medicalExamples.poisson.hospitalInfections`):
same `bedCount`, `staffRatio` and `lambda`, but the count is
`Math.floor(Math.random() * lambda * 10)`, not a Poisson draw. -/
structure HomeHospSample where
  bedCount : ℤ
  staffRatio : ℝ
  infections : ℤ

noncomputable def homeHospSample (u1 u2 u3 : ℝ) : HomeHospSample :=
  let bedCount := ⌊10 + u1 * 90⌋
  let staffRatio := (0.2 : ℝ) + u2 * 0.5
  let lam := ((bedCount : ℝ) / 20) * (1 - staffRatio)
  ⟨bedCount, staffRatio, ⌊u3 * lam * 10⌋⟩

/-- **C8, amended**: on the Poisson page the infection count is drawn via
the Poisson sampler at rate `λ = (bedCount/20)·(1 − staffRatio)` computed
from the sample's own emitted fields; the Home page's generator of the
same name instead computes `floor(u·λ·10)` from a single uniform draw. -/
theorem hospSample_infections :
    (∀ (u1 u2 : ℝ) (rng : ℕ → ℝ) (fuel : ℕ),
      (hospSample u1 u2 rng fuel).infections
        = poissonSample (((hospSample u1 u2 rng fuel).bedCount : ℝ) / 20
            * (1 - (hospSample u1 u2 rng fuel).staffRatio)) rng fuel) ∧
    (∀ u1 u2 u3 : ℝ,
      (homeHospSample u1 u2 u3).infections
        = ⌊u3 * (((homeHospSample u1 u2 u3).bedCount : ℝ) / 20
            * (1 - (homeHospSample u1 u2 u3).staffRatio)) * 10⌋) :=
  ⟨fun _ _ _ _ => rfl, fun _ _ _ => rfl⟩

/-- **C8, counterexample**: at draws `u1 = 0`, `u2 = 0` (so `bedCount =
10`, `staffRatio = 0.2`, `λ = 2/5`) and count draw `9/10`, the Home
generator emits `3` infections, while the Poisson sampler on the very same
stream (`9/10`, then `1/2`, …) returns `1`: the Home count is not drawn
via the Poisson sampler. -/
theorem homeHospSample_cex :
    (homeHospSample 0 0 (9/10)).infections = 3 ∧
    ((homeHospSample 0 0 (9/10)).bedCount : ℝ) / 20
      * (1 - (homeHospSample 0 0 (9/10)).staffRatio) = 2/5 ∧
    poissonSample (2/5) (fun i => if i = 0 then (9/10 : ℝ) else 1/2) 2 = some 1 ∧
    (3 : ℤ) ≠ (1 : ℤ) := by
  have hbedR : ((10 : ℝ) + 0 * 90) = ((10 : ℤ) : ℝ) := by norm_num
  have hbed : (homeHospSample 0 0 (9/10)).bedCount = 10 := by
    show ⌊(10 : ℝ) + 0 * 90⌋ = 10
    rw [hbedR, Int.floor_intCast]
  have hstaff : (homeHospSample 0 0 (9/10)).staffRatio = 0.2 := by
    show (0.2 : ℝ) + 0 * 0.5 = 0.2
    norm_num
  refine ⟨?_, ?_, ?_, by norm_num⟩
  · show ⌊(9/10 : ℝ) * (((⌊(10 : ℝ) + 0 * 90⌋ : ℝ) / 20) * (1 - ((0.2 : ℝ) + 0 * 0.5))) * 10⌋
      = 3
    rw [hbedR, Int.floor_intCast]
    have : ((9/10 : ℝ) * ((((10 : ℤ) : ℝ) / 20) * (1 - ((0.2 : ℝ) + 0 * 0.5))) * 10)
        = ((18 : ℝ) / 5) := by push_cast; ring_nf
    rw [this]
    rw [Int.floor_eq_iff]
    constructor <;> norm_num
  · rw [hbed, hstaff]; norm_num
  · have hL1 : Real.exp (-(2/5 : ℝ)) < 9/10 := by
      have h2 : (7/5 : ℝ) ≤ Real.exp (2/5) := by
        have := Real.add_one_le_exp (2/5 : ℝ)
        linarith
      rw [Real.exp_neg]
      have hinv : (Real.exp (2/5 : ℝ))⁻¹ ≤ (7/5 : ℝ)⁻¹ :=
        inv_anti₀ (by norm_num) h2
      calc (Real.exp (2/5 : ℝ))⁻¹ ≤ (7/5 : ℝ)⁻¹ := hinv
        _ < 9/10 := by norm_num
    have hL2 : ((1 : ℝ) * (9/10)) * (1/2) ≤ Real.exp (-(2/5 : ℝ)) := by
      have := Real.add_one_le_exp (-(2/5) : ℝ)
      linarith
    have e1 : poissonSample (2/5) (fun i => if i = 0 then (9/10 : ℝ) else 1/2) 2
        = if (1 : ℝ) * (9/10) ≤ Real.exp (-(2/5 : ℝ)) then some 0
          else poissonLoop (Real.exp (-(2/5 : ℝ)))
            (fun i => if i = 0 then (9/10 : ℝ) else 1/2) 1 1 ((1 : ℝ) * (9/10)) := rfl
    have e2 : poissonLoop (Real.exp (-(2/5 : ℝ)))
        (fun i => if i = 0 then (9/10 : ℝ) else 1/2) 1 1 ((1 : ℝ) * (9/10))
        = if ((1 : ℝ) * (9/10)) * (1/2) ≤ Real.exp (-(2/5 : ℝ)) then some 1
          else poissonLoop (Real.exp (-(2/5 : ℝ)))
            (fun i => if i = 0 then (9/10 : ℝ) else 1/2) 0 2 (((1 : ℝ) * (9/10)) * (1/2)) :=
      rfl
    rw [e1, if_neg (by rw [one_mul]; exact not_le.mpr hL1), e2, if_pos hL2]

/-! ## Simple linear estimator (part_000: `LinearRegression`, and the
same computation over parallel arrays in `MultipleRegression`)

JavaScript numbers are idealised as exact rationals, except at the one
unguarded division `slope = ssxy / ssxx`, where the source can produce an
IEEE-754 special value: `JsNum` adjoins `NaN` and the two infinities, and
`jsDiv`, `jsMulFin`, `jsSubFin` implement JavaScript's rules for exactly
the operations the source performs downstream of that division. -/

/-- A JavaScript number: a finite value, `NaN`, `Infinity` or
`-Infinity`. -/
inductive JsNum where
  | fin (q : ℚ)
  | nan
  | inf
  | ninf
deriving DecidableEq, Repr

def JsNum.isFinite : JsNum → Bool
  | .fin _ => true
  | _ => false

/-- JavaScript division of finite values: `a / 0` is `NaN` when `a = 0`
and a signed infinity otherwise; a non-zero divisor gives the exact
quotient. -/
def jsDiv (a b : ℚ) : JsNum :=
  if b = 0 then (if a = 0 then .nan else if 0 < a then .inf else .ninf)
  else .fin (a / b)

/-- JavaScript multiplication of a (possibly special) value by a finite
one. -/
def jsMulFin : JsNum → ℚ → JsNum
  | .fin a, c => .fin (a * c)
  | .nan, _ => .nan
  | .inf, c => if 0 < c then .inf else if c < 0 then .ninf else .nan
  | .ninf, c => if 0 < c then .ninf else if c < 0 then .inf else .nan

/-- JavaScript subtraction of a (possibly special) value from a finite
one. -/
def jsSubFin (a : ℚ) : JsNum → JsNum
  | .fin b => .fin (a - b)
  | .nan => .nan
  | .inf => .ninf
  | .ninf => .inf

/-- The `{slope, intercept}` pair the source computes for the regression
line. -/
structure FitResult where
  slope : JsNum
  intercept : JsNum
deriving DecidableEq, Repr

/-- `d3.mean` on a list of finite numbers: sum over length. -/
def mean (xs : List ℚ) : ℚ := xs.sum / (xs.length : ℚ)

/-- The linear estimator of `LinearRegression` (part_000): project the
data to `xValues`/`yValues`, take means, form `ssxx` and `ssxy`, divide,
and compute the intercept from the slope. -/
def fitLinear (data : List (ℚ × ℚ)) : FitResult :=
  let xValues := data.map Prod.fst
  let yValues := data.map Prod.snd
  let xMean := mean xValues
  let yMean := mean yValues
  let ssxx := (xValues.map (fun x => (x - xMean) ^ 2)).sum
  let ssxy := (data.map (fun d => (d.1 - xMean) * (d.2 - yMean))).sum
  let slope := jsDiv ssxy ssxx
  ⟨slope, jsSubFin yMean (jsMulFin slope xMean)⟩

/-- The slope as the claim words it, over parallel sequences `X`, `Y`:
`ssxy / ssxx` with `ssxy = Σ(xᵢ−x̄)(yᵢ−ȳ)` and `ssxx = Σ(xᵢ−x̄)²` (this is
also literally the computation path of `MultipleRegression`, which indexes
`yValues` in parallel with `xValues`). -/
def specSlope (xs ys : List ℚ) : ℚ :=
  (List.zipWith (fun x y => (x - mean xs) * (y - mean ys)) xs ys).sum
    / (xs.map (fun x => (x - mean xs) ^ 2)).sum

/-- The intercept as the claim words it: `ȳ − slope·x̄`. -/
def specIntercept (xs ys : List ℚ) : ℚ := mean ys - specSlope xs ys * mean xs

/-- Residual sum of squares of the line `y = a·x + b` on a dataset. -/
def rss (data : List (ℚ × ℚ)) (a b : ℚ) : ℚ :=
  (data.map (fun d => (d.2 - (a * d.1 + b)) ^ 2)).sum

theorem map_uncurried_zip {α β γ : Type} (f : α → β → γ) :
    ∀ (xs : List α) (ys : List β),
    ((xs.zip ys).map fun d => f d.1 d.2) = List.zipWith f xs ys := by
  intro xs
  induction xs with
  | nil => intro ys; rfl
  | cons x xt ih =>
    intro ys
    cases ys with
    | nil => rfl
    | cons y yt => simp [List.zip_cons_cons, ih]

theorem list_sum_pos_of_mem {l : List ℚ} (h0 : ∀ x ∈ l, 0 ≤ x) {x : ℚ}
    (hx : x ∈ l) (hxp : 0 < x) : 0 < l.sum := by
  induction l with
  | nil => simp at hx
  | cons y t ih =>
    rw [List.sum_cons]
    rcases List.mem_cons.mp hx with h | h
    · have ht : 0 ≤ t.sum := List.sum_nonneg fun z hz => h0 z (List.mem_cons_of_mem _ hz)
      subst h
      linarith
    · have hy : 0 ≤ y := h0 y (List.mem_cons_self _ _)
      have := ih (fun z hz => h0 z (List.mem_cons_of_mem _ hz)) h
      linarith

theorem ssxx_pos (xs : List ℚ) (hd : ∃ a ∈ xs, ∃ b ∈ xs, a ≠ b) :
    0 < (xs.map (fun x => (x - mean xs) ^ 2)).sum := by
  obtain ⟨a, ha, b, hb, hab⟩ := hd
  have h0 : ∀ x ∈ xs.map (fun x => (x - mean xs) ^ 2), 0 ≤ x := by
    intro x hx
    obtain ⟨z, _, rfl⟩ := List.mem_map.mp hx
    positivity
  have hkey : ∃ c ∈ xs, c ≠ mean xs := by
    by_cases hax : a = mean xs
    · exact ⟨b, hb, fun hbx => hab (by rw [hax, hbx])⟩
    · exact ⟨a, ha, hax⟩
  obtain ⟨c, hc, hcm⟩ := hkey
  exact list_sum_pos_of_mem h0
    (List.mem_map_of_mem (fun x => (x - mean xs) ^ 2) hc)
    (pow_two_pos_of_ne_zero (sub_ne_zero_of_ne hcm))

theorem list_sum_const {l : List ℚ} {c : ℚ} (h : ∀ x ∈ l, x = c) :
    l.sum = (l.length : ℚ) * c := by
  induction l with
  | nil => simp
  | cons y t ih =>
    have hy : y = c := h y (List.mem_cons_self _ _)
    have ht := ih (fun z hz => h z (List.mem_cons_of_mem _ hz))
    rw [List.sum_cons, hy, ht, List.length_cons]
    push_cast
    ring

/-- **C2**: with equal lengths, at least two points and at least two
distinct `X` values, the estimator returns exactly the finite closed-form
`slope = ssxy/ssxx` and `intercept = ȳ − slope·x̄` of the claim; on
`X = [1,2,3]`, `Y = [2,4,6]` it returns `slope = 2`, `intercept = 0`,
which minimises the residual sum of squares on that data. -/
theorem fitLinear_spec :
    (∀ xs ys : List ℚ, xs.length = ys.length → 2 ≤ xs.length →
      (∃ a ∈ xs, ∃ b ∈ xs, a ≠ b) →
      fitLinear (xs.zip ys)
        = ⟨JsNum.fin (specSlope xs ys), JsNum.fin (specIntercept xs ys)⟩) ∧
    fitLinear [(1, 2), (2, 4), (3, 6)] = ⟨JsNum.fin 2, JsNum.fin 0⟩ ∧
    (∀ a b : ℚ, rss [(1, 2), (2, 4), (3, 6)] 2 0 ≤ rss [(1, 2), (2, 4), (3, 6)] a b) := by
  refine ⟨fun xs ys hlen hM hd => ?_, ?_, fun a b => ?_⟩
  · have hfst : (xs.zip ys).map Prod.fst = xs := List.map_fst_zip xs ys (le_of_eq hlen)
    have hsnd : (xs.zip ys).map Prod.snd = ys :=
      List.map_snd_zip xs ys (le_of_eq hlen.symm)
    have hne : (xs.map (fun x => (x - mean xs) ^ 2)).sum ≠ 0 := ne_of_gt (ssxx_pos xs hd)
    simp only [fitLinear, hfst, hsnd]
    rw [map_uncurried_zip (fun x y => (x - mean xs) * (y - mean ys)) xs ys]
    rw [jsDiv, if_neg hne]
    simp only [jsMulFin, jsSubFin, specSlope, specIntercept]
  · norm_num [fitLinear, mean, jsDiv, jsMulFin, jsSubFin]
  · have h0 : rss [(1, 2), (2, 4), (3, 6)] 2 0 = 0 := by norm_num [rss]
    rw [h0, rss]
    simp only [List.map_cons, List.map_nil, List.sum_cons, List.sum_nil]
    positivity

/-- Witness for C2 at `X = [1,2,3]`, `Y = [2,4,6]`. -/
theorem fitLinear_spec_witness :
    (([1, 2, 3] : List ℚ).length = ([2, 4, 6] : List ℚ).length) ∧
    (2 ≤ ([1, 2, 3] : List ℚ).length) ∧
    (∃ a ∈ ([1, 2, 3] : List ℚ), ∃ b ∈ ([1, 2, 3] : List ℚ), a ≠ b) ∧
    fitLinear (([1, 2, 3] : List ℚ).zip ([2, 4, 6] : List ℚ))
      = ⟨JsNum.fin (specSlope [1, 2, 3] [2, 4, 6]),
         JsNum.fin (specIntercept [1, 2, 3] [2, 4, 6])⟩ :=
  ⟨rfl, by norm_num, ⟨1, by norm_num, 2, by norm_num, by norm_num⟩,
   fitLinear_spec.1 [1, 2, 3] [2, 4, 6] rfl (by norm_num)
     ⟨1, by norm_num, 2, by norm_num, by norm_num⟩⟩

/-- **C3, counterexample**: on the identical-`X` input `[(1,1), (1,2)]`
the estimator does not signal any error — its result type has no error
case — and the `FitResult` it returns has a non-finite (`NaN`) slope. -/
theorem fitLinear_invalid_input_cex :
    (fitLinear [(1, 1), (1, 2)]).slope = JsNum.nan ∧
    ¬ ((fitLinear [(1, 1), (1, 2)]).slope.isFinite = true) := by
  have h : (fitLinear [((1 : ℚ), (1 : ℚ)), (1, 2)]).slope = JsNum.nan := by
    norm_num [fitLinear, mean, jsDiv]
  exact ⟨h, by rw [h]; simp [JsNum.isFinite]⟩

/-- **C3, amended**: for every non-empty input whose `X` values are all
identical (`ssxx = 0`), the unguarded source computes `slope = 0/0 = NaN`
and `intercept = NaN`: it returns a result containing non-finite values
instead of signalling an `InvalidInput` error. -/
theorem fitLinear_degenerate (data : List (ℚ × ℚ)) (c : ℚ) (hne : data ≠ [])
    (hall : ∀ p ∈ data, p.1 = c) :
    (fitLinear data).slope = JsNum.nan ∧ (fitLinear data).intercept = JsNum.nan ∧
    (fitLinear data).slope.isFinite = false := by
  have hlen0 : (data.map Prod.fst).length = data.length := List.length_map _ _
  have hLpos : 0 < data.length := List.length_pos.mpr hne
  have hLne : ((data.length : ℚ)) ≠ 0 := by
    exact_mod_cast Nat.pos_iff_ne_zero.mp hLpos
  have hallx : ∀ x ∈ data.map Prod.fst, x = c := by
    intro x hx
    obtain ⟨p, hp, rfl⟩ := List.mem_map.mp hx
    exact hall p hp
  have hmean : mean (data.map Prod.fst) = c := by
    rw [mean, list_sum_const hallx, hlen0, mul_comm, mul_div_assoc, div_self hLne,
      mul_one]
  have hssxx : ((data.map Prod.fst).map
      (fun x => (x - mean (data.map Prod.fst)) ^ 2)).sum = 0 := by
    apply List.sum_eq_zero
    intro x hx
    obtain ⟨z, hz, rfl⟩ := List.mem_map.mp hx
    rw [hmean, hallx z hz]
    ring
  have hssxy : (data.map
      (fun d => (d.1 - mean (data.map Prod.fst))
        * (d.2 - mean (data.map Prod.snd)))).sum = 0 := by
    apply List.sum_eq_zero
    intro x hx
    obtain ⟨p, hp, rfl⟩ := List.mem_map.mp hx
    rw [hmean, hall p hp]
    ring
  have key : jsDiv (data.map
      (fun d => (d.1 - mean (data.map Prod.fst))
        * (d.2 - mean (data.map Prod.snd)))).sum
      ((data.map Prod.fst).map
        (fun x => (x - mean (data.map Prod.fst)) ^ 2)).sum = JsNum.nan := by
    rw [hssxx, hssxy]
    simp [jsDiv]
  have hslope : (fitLinear data).slope = JsNum.nan := key
  have hint : (fitLinear data).intercept
      = jsSubFin (mean (data.map Prod.snd))
          (jsMulFin ((fitLinear data).slope) (mean (data.map Prod.fst))) := rfl
  rw [hslope] at hint
  exact ⟨hslope, by rw [hint]; rfl, by rw [hslope]; rfl⟩

/-- Witness for the amended C3 on the concrete identical-`X` input
`[(1,1), (1,5)]`. -/
theorem fitLinear_degenerate_witness :
    (([((1 : ℚ), (1 : ℚ)), (1, 5)] : List (ℚ × ℚ)) ≠ []) ∧
    (∀ p ∈ ([((1 : ℚ), (1 : ℚ)), (1, 5)] : List (ℚ × ℚ)), p.1 = 1) ∧
    (fitLinear [(1, 1), (1, 5)]).slope = JsNum.nan ∧
    (fitLinear [(1, 1), (1, 5)]).intercept = JsNum.nan :=
  ⟨by simp, fun p hp => by fin_cases hp <;> rfl,
   (fitLinear_degenerate [(1, 1), (1, 5)] 1 (by simp)
     (fun p hp => by fin_cases hp <;> rfl)).1,
   (fitLinear_degenerate [(1, 1), (1, 5)] 1 (by simp)
     (fun p hp => by fin_cases hp <;> rfl)).2.1⟩

end ByoaRegression
